import Mathlib

/-!
Shallow embedding of the `filecache` Go package (src/filecache.go).

The filesystem state is modelled explicitly: the base directory is a list of
directory entries in directory order (Go `Readdir` order), and the staging
(temp) directory is a list of staging-file identifiers with a counter that
yields fresh names (`os.CreateTemp`).  Timestamps are integers counting
nanoseconds since the epoch (Go `time.Time`); `Time.Unix()` is floor
division by 10^9.  Fallible filesystem calls are embedded with explicit
failure-injection flags: each flag corresponds to one `err != nil` branch in
the source, and turning all of them off gives the error-free execution.
The lock gateway is modelled in its absent (`lockFactory == nil`)
configuration: the claims under verification do not concern lock contention.
-/

namespace Filecache

/-- One directory entry as the Go code observes it through `os.FileInfo`:
name, directory flag, size, modification time (nanoseconds since epoch),
and — for regular files — the cached byte content. -/
structure FInfo where
  name : String
  isDir : Bool
  size : Int
  modTime : Int
  content : List Nat
  deriving DecidableEq, Repr

/-- The disk state seen by one `FileCache`: the base directory (committed
entries, in directory order), the staging directory (identifiers of live
temp files) and a counter from which `os.CreateTemp` draws fresh names. -/
structure DiskState where
  base : List FInfo
  temp : List Nat
  tmpCounter : Nat
  deriving DecidableEq, Repr

/-- The error values the embedded operations can surface: `notExist` stands
for `os.ErrNotExist` (and stat failures on absent paths), `keyExisted` for
the package's `errKeyExisted`, `ioErr` for any injected I/O failure. -/
inductive FCErr where
  | notExist
  | keyExisted
  | ioErr
  deriving DecidableEq, Repr

instance {ε : Type u} {α : Type v} [DecidableEq ε] [DecidableEq α] :
    DecidableEq (Except ε α)
  | .ok a, .ok b => decidable_of_iff (a = b) (by simp)
  | .ok _, .error _ => .isFalse (fun h => Except.noConfusion h)
  | .error _, .ok _ => .isFalse (fun h => Except.noConfusion h)
  | .error a, .error b => decidable_of_iff (a = b) (by simp)

/-- `os.Stat` on a path inside the base directory: the first entry with the
given name, if any. -/
def lookupFile (base : List FInfo) (key : String) : Option FInfo :=
  base.find? (fun e => e.name == key)

/-- `checkFileExist` (src/filecache.go lines 104-113): stat the path; an
absent path is an error, and a directory is reported as `os.ErrNotExist`. -/
def checkFileExist (base : List FInfo) (key : String) : Except FCErr Unit :=
  match lookupFile base key with
  | none => .error .notExist
  | some e => if e.isDir then .error .notExist else .ok ()

/-- `FileCache.hasFile` (lines 123-129): `checkFileExist` on the key's
absolute path (path resolution is the identity in the model, since the base
directory is the only directory modelled). -/
def hasFile (st : DiskState) (key : String) : Except FCErr Unit :=
  checkFileExist st.base key

/-- `FileCache.touch` (lines 222-227): `os.Chtimes` on the key's path,
substituting the current time for a zero timestamp; fails when the path is
absent. -/
def touch (st : DiskState) (key : String) (ts now : Int) :
    DiskState × Except FCErr Unit :=
  let t := if ts = 0 then now else ts
  match lookupFile st.base key with
  | none => (st, .error .notExist)
  | some _ =>
    ({ st with
        base := st.base.map (fun e =>
          if e.name = key then { e with modTime := t } else e) },
      .ok ())

/-- `FileCache.Read` (lines 132-147): check existence, bump the last-access
timestamp to `now` via `touch`, then open the file and hand back its
content stream. -/
def Read (st : DiskState) (key : String) (now : Int) :
    DiskState × Except FCErr (List Nat) :=
  match hasFile st key with
  | .error e => (st, .error e)
  | .ok _ =>
    match touch st key now now with
    | (st1, .error e) => (st1, .error e)
    | (st1, .ok _) =>
      match lookupFile st1.base key with
      | none => (st1, .error .notExist)
      | some e => (st1, .ok e.content)

/-- `FileCache.Has` (lines 149-152): true exactly when `hasFile` returns no
error. -/
def Has (st : DiskState) (key : String) : Bool :=
  match hasFile st key with
  | .ok _ => true
  | .error _ => false

/-- The committed entry `Write` installs for `key`: a regular file holding
the fully copied stream, stamped with the write time. -/
def mkFile (key : String) (content : List Nat) (now : Int) : FInfo :=
  { name := key, isDir := false, size := (content.length : Int),
    modTime := now, content := content }

/-- `os.Remove` of a staging file: drop the identifier from the staging
directory (removing an identifier that is not present is the deferred
`os.Remove` after a successful rename, whose error the source ignores). -/
def removeTempFile (st : DiskState) (id : Nat) : DiskState :=
  { st with temp := st.temp.filter (fun i => i != id) }

/-- `os.Rename(tmp, dest)` into the base directory: fails if `dest` is an
existing directory, silently replaces an existing regular file, otherwise
links the new entry into the directory. -/
def renameInto (base : List FInfo) (key : String) (e : FInfo) :
    Except FCErr (List FInfo) :=
  match lookupFile base key with
  | some old =>
    if old.isDir then .error .ioErr
    else .ok (base.map (fun f => if f.name = key then e else f))
  | none => .ok (base ++ [e])

/-- `FileCache.Write` (lines 155-186): create-only check via `hasFile`,
then create a staging file (`os.CreateTemp`), copy the stream, sync, and
rename into the base directory.  `defer os.Remove(tmp.Name())` removes the
staging file on every exit path after its creation.  Each of the four
failure flags injects the corresponding `err != nil` branch. -/
def Write (st : DiskState) (key : String) (content : List Nat) (now : Int)
    (failCreate failCopy failSync failRename : Bool) :
    DiskState × Except FCErr Unit :=
  match hasFile st key with
  | .ok _ => (st, .error .keyExisted)
  | .error _ =>
    if failCreate then (st, .error .ioErr)
    else
      let id := st.tmpCounter
      let st1 : DiskState :=
        { st with temp := st.temp ++ [id], tmpCounter := st.tmpCounter + 1 }
      if failCopy then (removeTempFile st1 id, .error .ioErr)
      else if failSync then (removeTempFile st1 id, .error .ioErr)
      else if failRename then (removeTempFile st1 id, .error .ioErr)
      else
        match renameInto st1.base key (mkFile key content now) with
        | .error e => (removeTempFile st1 id, .error e)
        | .ok base2 => ({ removeTempFile st1 id with base := base2 }, .ok ())

/-- `FileCache.Delete` (lines 188-202): `hasFile` check then `os.Remove`;
the `failRemove` flag injects an I/O failure of the `os.Remove` call. -/
def Delete (st : DiskState) (key : String) (failRemove : Bool) :
    DiskState × Except FCErr Unit :=
  match hasFile st key with
  | .error e => (st, .error e)
  | .ok _ =>
    if failRemove then (st, .error .ioErr)
    else ({ st with base := st.base.filter (fun e => e.name != key) }, .ok ())

/-- `Time.Unix()`: nanoseconds to whole seconds, flooring. -/
def unixSec (t : Int) : Int := Int.fdiv t 1000000000

/-- The comparator `Files` sorts by (line 247): ascending second-resolution
modification time.  The source passes the strict form
`list[i].ModTime().Unix() < list[j].ModTime().Unix()` to `sort.Slice`;
sorting by that strict comparator produces exactly a list that is
nondecreasing under this reflexive form. -/
def fileLE (a b : FInfo) : Bool :=
  decide (unixSec a.modTime ≤ unixSec b.modTime)

/-- `FileCache.Files` (lines 237-249): read the base directory (direct,
non-recursive contents, in directory order) and sort ascending by
`ModTime().Unix()`.  The source's `sort.Slice` is modelled by a
deterministic sort; ties in the second-resolution key are broken
arbitrarily but deterministically, as the spec allows. -/
def Files (st : DiskState) : List FInfo :=
  st.base.mergeSort fileLE

/-- `Files` with its enumeration failure path: opening or reading the base
directory can fail, in which case no entries are returned along with the
error. -/
def FilesE (listFails : Bool) (st : DiskState) : Except FCErr (List FInfo) :=
  if listFails then .error .ioErr else .ok (Files st)

/-- `FileCache.Size` (lines 272-285): total size of all non-directory
entries under the base directory (the model has no nested directories, so
the `filepath.Walk` is a fold over the base entries). -/
def Size (st : DiskState) : Int :=
  ((st.base.filter (fun e => !e.isDir)).map (fun e => e.size)).sum

/-- The TTL staleness test (line 259-260): `time.Since(ModTime) > MaxTTL`,
at full nanosecond resolution. -/
def isStale (now maxTTL : Int) (e : FInfo) : Bool :=
  decide (now - e.modTime > maxTTL)

/-- The loop body of `cleanCachedFileByTTL` (lines 257-267): walk the
listed entries in order, deleting each stale one; a delete error aborts
the walk and is returned. -/
def cleanTTLGo (now maxTTL : Int) (failDel : String → Bool) :
    List FInfo → DiskState → DiskState × Except FCErr Unit
  | [], st => (st, .ok ())
  | f :: rest, st =>
    if isStale now maxTTL f then
      match Delete st f.name (failDel f.name) with
      | (st1, .ok _) => cleanTTLGo now maxTTL failDel rest st1
      | (st1, .error e) => (st1, .error e)
    else cleanTTLGo now maxTTL failDel rest st

/-- `FileCache.cleanCachedFileByTTL` (lines 251-270): list the entries —
swallowing a listing failure as success with nothing deleted — then delete
every entry strictly older than `maxTTL`. -/
def cleanCachedFileByTTL (now maxTTL : Int) (listFails : Bool)
    (failDel : String → Bool) (st : DiskState) :
    DiskState × Except FCErr Unit :=
  match FilesE listFails st with
  | .error _ => (st, .ok ())
  | .ok files => cleanTTLGo now maxTTL failDel files st

/-- The loop body of `cleanCachedFileByLRU` (lines 300-311): delete listed
entries in order, accumulating their sizes, stopping as soon as the
accumulated size reaches `resize`; a delete error aborts the walk. -/
def cleanLRUGo (resize : Int) (failDel : String → Bool) :
    List FInfo → Int → DiskState → DiskState × Except FCErr Unit
  | [], _, st => (st, .ok ())
  | f :: rest, cleaned, st =>
    match Delete st f.name (failDel f.name) with
    | (st1, .error e) => (st1, .error e)
    | (st1, .ok _) =>
      if cleaned + f.size ≥ resize then (st1, .ok ())
      else cleanLRUGo resize failDel rest (cleaned + f.size) st1

/-- `FileCache.cleanCachedFileByLRU` (lines 287-315): compute the current
total size; if it exceeds `maxSize`, list the entries — swallowing a
listing failure as success — and delete oldest-first until the deleted
sizes cover the excess. -/
def cleanCachedFileByLRU (maxSize : Int) (listFails : Bool)
    (failDel : String → Bool) (st : DiskState) :
    DiskState × Except FCErr Unit :=
  let resize := Size st - maxSize
  if resize > 0 then
    match FilesE listFails st with
    | .error _ => (st, .ok ())
    | .ok files => cleanLRUGo resize failDel files 0 st
  else (st, .ok ())

/-- `FileCache.cleanCachedFiles` (lines 317-336): the combined sweep — TTL
pass then size pass, each error aborting the sweep. -/
def cleanCachedFiles (now maxTTL maxSize : Int) (listFails : Bool)
    (failDel : String → Bool) (st : DiskState) :
    DiskState × Except FCErr Unit :=
  match cleanCachedFileByTTL now maxTTL listFails failDel st with
  | (st1, .error e) => (st1, .error e)
  | (st1, .ok _) => cleanCachedFileByLRU maxSize listFails failDel st1

/-- The Go runtime's channel close: closing an already-closed channel is a
runtime panic (`close of closed channel`); otherwise the channel becomes
closed. -/
def closeChan (closed : Bool) : Except String Bool :=
  if closed then .error "close of closed channel" else .ok true

/-- `FileCache.StopGC` (lines 357-359): a bare `close(f.quit)` on the quit
channel, whatever its state.  The argument is whether `quit` is already
closed; `New` creates it open, so a first call sees `false`. -/
def StopGC (quitClosed : Bool) : Except String Bool :=
  closeChan quitClosed

/-- The body of `FileCache.RunGC`'s goroutine (lines 340-353), as a
function of the number of elapsed ticker ticks (no quit signal in the
trace): every loop iteration consumes one tick at the bare `<-ticker.C` at
the top of the `for` body, then a second tick in the `select`, and only
then runs one combined eviction pass; a pass error is only logged and
never leaves the loop.  The result is the disk state after the consumed
ticks together with the number of passes that ran. -/
def runGCLoop (pass : DiskState → DiskState × Except FCErr Unit) :
    Nat → DiskState → DiskState × Nat
  | 0, st => (st, 0)
  | 1, st => (st, 0)
  | n + 2, st =>
    let fired := pass st
    let rest := runGCLoop pass n fired.1
    (rest.1, rest.2 + 1)

/-- Names of a list of directory entries, in order. -/
def names (l : List FInfo) : List String := l.map (fun e => e.name)

/-- Sum of the sizes of a list of directory entries. -/
def sumSizes (l : List FInfo) : Int := (l.map (fun e => e.size)).sum

/-- The prefix of the listing the size pass deletes: keep taking entries
while the accumulated size has not yet reached the excess, including the
first entry that makes it reach or exceed it. -/
def lruTake : Int → List FInfo → List FInfo
  | _, [] => []
  | r, f :: rest =>
    if f.size ≥ r then [f] else f :: lruTake (r - f.size) rest

/-- The entries the size pass deletes when the store of state `st` exceeds
`maxSize`: the `lruTake` prefix of the ascending listing covering the
excess. -/
def lruVictims (maxSize : Int) (st : DiskState) : List FInfo :=
  lruTake (Size st - maxSize) (Files st)

/-- Well-formedness of a disk state as the operating system guarantees it:
directory entry names are unique. -/
def WFNames (st : DiskState) : Prop := (names st.base).Nodup

instance (st : DiskState) : Decidable (WFNames st) := by
  unfold WFNames; infer_instance

/-- Removing one named entry from a directory listing (`os.Remove` inside
`Delete`; names are unique in a directory, so the filter removes exactly
that entry). -/
def dropName (base : List FInfo) (k : String) : List FInfo :=
  base.filter (fun e => e.name != k)

/-- Removing a sequence of named entries, in order: the net effect on the
base directory of the deletions an eviction pass performs. -/
def dropNames (base : List FInfo) (ks : List String) : List FInfo :=
  ks.foldl dropName base

/-- A small concrete disk state used by closed evidence theorems. -/
def sampleState : DiskState := { base := [], temp := [], tmpCounter := 0 }

/-- Concrete regular-file entry used by witnesses. -/
def cFileK : FInfo :=
  { name := "k", isDir := false, size := 3, modTime := 5, content := [1, 2, 3] }

def cStateK : DiskState := { base := [cFileK], temp := [], tmpCounter := 0 }

/-- Concrete directory entry used by witnesses. -/
def cDirD : FInfo :=
  { name := "d", isDir := true, size := 0, modTime := 3, content := [] }

def cStateD : DiskState := { base := [cDirD], temp := [], tmpCounter := 0 }

/-- Concrete three-entry state mirroring the package's TTL test: two old
entries and one recent one. -/
def ttlState : DiskState :=
  { base :=
      [{ name := "key1", isDir := false, size := 4, modTime := 0, content := [1] },
       { name := "key2", isDir := false, size := 4, modTime := 1, content := [2] },
       { name := "key3", isDir := false, size := 4, modTime := 95, content := [3] }],
    temp := [], tmpCounter := 0 }

/-- Concrete three-entry state mirroring the package's LRU test: three
same-size entries, the two oldest by last-access time listed first. -/
def lruState : DiskState :=
  { base :=
      [{ name := "key1", isDir := false, size := 10, modTime := 0, content := [] },
       { name := "key3", isDir := false, size := 10, modTime := 1000000000,
         content := [] },
       { name := "key2", isDir := false, size := 10, modTime := 60000000000,
         content := [] }],
    temp := [], tmpCounter := 0 }

/-- Concrete state whose entries were written at strictly increasing
second-resolution times, in directory order. -/
def orderedState : DiskState :=
  { base :=
      [{ name := "a", isDir := false, size := 1, modTime := 1000000000,
         content := [] },
       { name := "b", isDir := false, size := 1, modTime := 3000000000,
         content := [] },
       { name := "c", isDir := false, size := 1, modTime := 7000000000,
         content := [] }],
    temp := [], tmpCounter := 0 }

/-- Concrete two-stale-entry state where deleting the second listed entry
is made to fail, for the failure-policy witnesses. -/
def failState : DiskState :=
  { base :=
      [{ name := "key1", isDir := false, size := 10, modTime := 0, content := [] },
       { name := "key2", isDir := false, size := 10, modTime := 1000000000,
         content := [] }],
    temp := [], tmpCounter := 0 }

/-- Delete-failure injection used by the failure-policy witnesses: the
`os.Remove` of `key2` fails with an I/O error. -/
def failOnKey2 : String → Bool := fun s => s == "key2"

/-! ### Lookup lemmas -/

theorem lookupFile_eq_some_of_mem {base : List FInfo} {f : FInfo}
    (hmem : f ∈ base) (hnd : (names base).Nodup) :
    lookupFile base f.name = some f := by
  induction base with
  | nil => cases hmem
  | cons a rest ih =>
    rcases List.mem_cons.mp hmem with h | h
    · subst h
      simp [lookupFile, List.find?_cons_of_pos]
    · have hne : a.name ≠ f.name := by
        intro hcontra
        have : a.name ∈ names rest := by
          rw [hcontra]
          exact List.mem_map_of_mem (fun e => e.name) h
        exact (List.nodup_cons.mp hnd).1 this
      have hrest : (names rest).Nodup := (List.nodup_cons.mp hnd).2
      simpa [lookupFile, List.find?_cons, hne] using ih h hrest

theorem lookupFile_filter_ne (base : List FInfo) (k other : String)
    (h : k ≠ other) :
    lookupFile (base.filter (fun e => e.name != other)) k
      = lookupFile base k := by
  simp only [lookupFile]
  induction base with
  | nil => rfl
  | cons a rest ih =>
    rw [List.filter_cons]
    by_cases ha : a.name = other
    · have hak : a.name ≠ k := fun hc => h (hc ▸ ha)
      simp only [ha, bne_self_eq_false, Bool.false_eq_true, if_false]
      rw [ih]
      simp [List.find?, show (a.name == k) = false by simp [hak]]
    · have hcond : (a.name != other) = true := by simp [ha]
      simp only [hcond, if_true]
      by_cases hk : a.name = k
      · simp [List.find?, hk]
      · simp only [List.find?, show (a.name == k) = false by simp [hk]]
        exact ih

theorem lookupFile_map_touch (base : List FInfo) (key : String) (t : Int)
    (e : FInfo) (hk : lookupFile base key = some e) :
    lookupFile
        (base.map (fun f => if f.name = key then { f with modTime := t } else f))
        key
      = some { e with modTime := t } := by
  induction base with
  | nil => simp [lookupFile] at hk
  | cons a rest ih =>
    by_cases h : a.name = key
    · have : a = e := by
        simpa [lookupFile, List.find?_cons, h] using hk
      subst this
      simp [lookupFile, List.find?_cons, h]
    · have hk' : lookupFile rest key = some e := by
        simpa [lookupFile, List.find?_cons, h] using hk
      simpa [lookupFile, List.find?_cons, h] using ih hk'

theorem temp_append_cancel (l : List Nat) (id : Nat) (h : ∀ i ∈ l, i < id) :
    (l ++ [id]).filter (fun i => i != id) = l := by
  rw [List.filter_append]
  have h1 : l.filter (fun i => i != id) = l :=
    List.filter_eq_self.mpr (fun a ha => by
      simpa using Nat.ne_of_lt (h a ha))
  simp [h1]

/-! ### Listing and deletion lemmas -/

theorem names_cons (f : FInfo) (l : List FInfo) :
    names (f :: l) = f.name :: names l := rfl

theorem sumSizes_cons (f : FInfo) (l : List FInfo) :
    sumSizes (f :: l) = f.size + sumSizes l := by
  simp [sumSizes]

theorem dropNames_nil (base : List FInfo) : dropNames base [] = base := rfl

theorem dropNames_cons (base : List FInfo) (k : String) (ks : List String) :
    dropNames base (k :: ks) = dropNames (dropName base k) ks := rfl

theorem dropNames_sem :
    ∀ (ks : List String) (base : List FInfo),
      dropNames base ks = base.filter (fun e => !(ks.contains e.name)) := by
  intro ks
  induction ks with
  | nil =>
    intro base
    simp [dropNames, List.filter_eq_self]
  | cons k ks ih =>
    intro base
    rw [dropNames_cons, ih, dropName, List.filter_filter]
    apply List.filter_congr
    intro e _
    by_cases h : e.name = k <;>
      simp [List.contains_cons, Bool.not_or, bne, Bool.and_comm, h]

theorem Delete_ok_eq (st : DiskState) (key : String) (g : FInfo)
    (hk : lookupFile st.base key = some g) (hd : g.isDir = false) :
    Delete st key false = ({ st with base := dropName st.base key }, .ok ()) := by
  simp [Delete, hasFile, checkFileExist, hk, hd, dropName]

theorem Delete_fail_eq (st : DiskState) (key : String) (g : FInfo)
    (hk : lookupFile st.base key = some g) (hd : g.isDir = false) :
    Delete st key true = (st, .error .ioErr) := by
  simp [Delete, hasFile, checkFileExist, hk, hd]

theorem Files_perm (st : DiskState) : (Files st).Perm st.base :=
  List.mergeSort_perm st.base fileLE

theorem mem_Files {st : DiskState} {e : FInfo} : e ∈ Files st ↔ e ∈ st.base :=
  List.mem_mergeSort

theorem names_Files_nodup (st : DiskState) (hnd : WFNames st) :
    (names (Files st)).Nodup := by
  simp only [WFNames, names] at hnd ⊢
  exact (List.Perm.nodup_iff ((Files_perm st).map (fun e => e.name))).mpr hnd

theorem fileLE_trans (a b c : FInfo) (h1 : fileLE a b) (h2 : fileLE b c) :
    fileLE a c := by
  simp only [fileLE, decide_eq_true_eq] at h1 h2 ⊢
  exact le_trans h1 h2

theorem fileLE_total (a b : FInfo) : fileLE a b || fileLE b a := by
  simp only [fileLE, Bool.or_eq_true, decide_eq_true_eq]
  exact le_total _ _

theorem Files_sorted (st : DiskState) :
    (Files st).Pairwise (fun a b => fileLE a b = true) :=
  List.sorted_mergeSort fileLE_trans fileLE_total st.base

theorem Files_eq_of_sorted (st : DiskState)
    (h : st.base.Pairwise (fun a b => unixSec a.modTime < unixSec b.modTime)) :
    Files st = st.base := by
  apply List.mergeSort_of_sorted
  refine h.imp ?_
  intro a b hab
  simp only [fileLE, decide_eq_true_eq]
  exact le_of_lt hab

theorem Files_presence (st : DiskState) (hnd : WFNames st)
    (hdir : ∀ e ∈ st.base, e.isDir = false) :
    ∀ f ∈ Files st, lookupFile st.base f.name = some f ∧ f.isDir = false := by
  intro f hf
  have hb : f ∈ st.base := mem_Files.mp hf
  exact ⟨lookupFile_eq_some_of_mem hb hnd, hdir f hb⟩

theorem contains_filterNames (st : DiskState) (hnd : WFNames st)
    (p : FInfo → Bool) :
    ∀ e ∈ st.base, ((names ((Files st).filter p)).contains e.name) = p e := by
  intro e he
  cases hpe : p e with
  | true =>
    have h1 : e ∈ (Files st).filter p :=
      List.mem_filter.mpr ⟨mem_Files.mpr he, hpe⟩
    have h2 : e.name ∈ names ((Files st).filter p) :=
      List.mem_map_of_mem (fun g => g.name) h1
    simpa using h2
  | false =>
    by_contra hc
    have hc' : (names ((Files st).filter p)).contains e.name = true := by
      cases h : (names ((Files st).filter p)).contains e.name
      · exact absurd h hc
      · rfl
    have h3 : e.name ∈ names ((Files st).filter p) := by simpa using hc'
    obtain ⟨g, hg, hgname⟩ := List.mem_map.mp h3
    have hgb : g ∈ st.base := mem_Files.mp (List.mem_filter.mp hg).1
    have hge : g = e := List.inj_on_of_nodup_map hnd hgb he hgname
    have : p e = true := hge ▸ (List.mem_filter.mp hg).2
    rw [this] at hpe
    exact Bool.true_eq_false.mp hpe

/-! ### The TTL pass -/

theorem cleanTTLGo_ok (now ttl : Int) (fd : String → Bool)
    (files : List FInfo) :
    ∀ (st : DiskState),
      (names files).Nodup →
      (∀ f ∈ files, lookupFile st.base f.name = some f ∧ f.isDir = false) →
      (∀ f ∈ files, fd f.name = false) →
      cleanTTLGo now ttl fd files st =
        ({ st with base :=
            dropNames st.base (names (files.filter (isStale now ttl))) },
          .ok ()) := by
  induction files with
  | nil =>
    intro st _ _ _
    rfl
  | cons f rest ih =>
    intro st hnd hpres hfd
    have hf := hpres f (List.mem_cons_self f rest)
    have hfd0 : fd f.name = false := hfd f (List.mem_cons_self f rest)
    have hndr : (names rest).Nodup := (List.nodup_cons.mp hnd).2
    have hfn : f.name ∉ names rest := (List.nodup_cons.mp hnd).1
    have hpres' : ∀ g ∈ rest,
        lookupFile (dropName st.base f.name) g.name = some g ∧
          g.isDir = false := by
      intro g hg
      have hne : g.name ≠ f.name := by
        intro hc
        exact hfn (hc ▸ List.mem_map_of_mem (fun e => e.name) hg)
      rw [dropName, lookupFile_filter_ne _ _ _ hne]
      exact hpres g (List.mem_cons_of_mem f hg)
    cases hs : isStale now ttl f with
    | true =>
      have hdel : Delete st f.name (fd f.name)
          = ({ st with base := dropName st.base f.name }, .ok ()) := by
        rw [hfd0]
        exact Delete_ok_eq st f.name f hf.1 hf.2
      have hrec := ih { st with base := dropName st.base f.name } hndr hpres'
        (fun g hg => hfd g (List.mem_cons_of_mem f hg))
      rw [cleanTTLGo, hs]
      simp only [if_true]
      rw [hdel]
      simp only [hrec]
      simp [List.filter_cons, hs, names_cons, dropNames_cons]
    | false =>
      have hrec := ih st hndr
        (fun g hg => hpres g (List.mem_cons_of_mem f hg))
        (fun g hg => hfd g (List.mem_cons_of_mem f hg))
      rw [cleanTTLGo, hs]
      simp only [Bool.false_eq_true, if_false]
      rw [hrec]
      simp [List.filter_cons, hs]

/-- Claim C4: with no injected failures, the TTL pass deletes exactly the
entries whose age `now - lastAccess` strictly exceeds `maxTTL`, walking the
listed entries in order, and removes all of them in the one pass no matter
how small the store becomes; entries at or below the bound are untouched. -/
theorem ttl_pass_exact (now ttl : Int) (st : DiskState)
    (hnd : WFNames st) (hdir : ∀ e ∈ st.base, e.isDir = false) :
    cleanCachedFileByTTL now ttl false (fun _ => false) st =
      ({ st with base := st.base.filter (fun e => !(isStale now ttl e)) },
        .ok ()) := by
  have h := cleanTTLGo_ok now ttl (fun _ => false) (Files st) st
    (names_Files_nodup st hnd) (Files_presence st hnd hdir) (fun _ _ => rfl)
  rw [cleanCachedFileByTTL]
  simp only [FilesE, if_false, Bool.false_eq_true]
  rw [h, dropNames_sem]
  have hfc : st.base.filter
      (fun e => !((names ((Files st).filter (isStale now ttl))).contains e.name))
      = st.base.filter (fun e => !(isStale now ttl e)) := by
    apply List.filter_congr
    intro e he
    rw [contains_filterNames st hnd _ e he]
  rw [hfc]

theorem ttl_pass_exact_witness :
    WFNames ttlState ∧
    (∀ e ∈ ttlState.base, e.isDir = false) ∧
    cleanCachedFileByTTL 100 10 false (fun _ => false) ttlState =
      ({ ttlState with base :=
          ttlState.base.filter (fun e => !(isStale 100 10 e)) }, .ok ()) ∧
    (cleanCachedFileByTTL 100 10 false (fun _ => false) ttlState).1.base
      = [{ name := "key3", isDir := false, size := 4, modTime := 95,
            content := [3] }] := by
  have h := ttl_pass_exact 100 10 ttlState (by decide) (by decide)
  refine ⟨by decide, by decide, h, ?_⟩
  rw [h]
  decide

/-! ### Claim theorems: write path and point operations -/

/-- Claim C1: in every `Write(key, stream)` call, any failure (temp-file
creation, stream copy, sync, or the rename itself) leaves the staging
directory exactly as it was — the staging file is removed before `Write`
returns its error — and adds nothing under the base directory; on success
the only change to the base directory is the single committed entry
installed by the rename, so only fully-written entries are ever visible
there. -/
theorem write_atomic (st : DiskState) (key : String) (content : List Nat)
    (now : Int) (fcr fco fsy fre : Bool)
    (hwf : ∀ i ∈ st.temp, i < st.tmpCounter) :
    (Write st key content now fcr fco fsy fre).1.temp = st.temp ∧
    ((Write st key content now fcr fco fsy fre).2 = .ok () →
      (Write st key content now fcr fco fsy fre).1.base
        = st.base ++ [mkFile key content now]) ∧
    ((Write st key content now fcr fco fsy fre).2 ≠ .ok () →
      (Write st key content now fcr fco fsy fre).1.base = st.base) ∧
    ((fcr || fco || fsy || fre) = true →
      (Write st key content now fcr fco fsy fre).2 ≠ .ok ()) := by
  have htemp := temp_append_cancel st.temp st.tmpCounter hwf
  cases hk : lookupFile st.base key with
  | some e =>
    cases hd : e.isDir with
    | true =>
      have hh : hasFile st key = .error .notExist := by
        simp [hasFile, checkFileExist, hk, hd]
      cases fcr <;> cases fco <;> cases fsy <;> cases fre <;>
        simp [Write, hh, renameInto, hk, hd, removeTempFile, htemp]
    | false =>
      have hh : hasFile st key = .ok () := by
        simp [hasFile, checkFileExist, hk, hd]
      cases fcr <;> cases fco <;> cases fsy <;> cases fre <;>
        simp [Write, hh]
  | none =>
    have hh : hasFile st key = .error .notExist := by
      simp [hasFile, checkFileExist, hk]
    cases fcr <;> cases fco <;> cases fsy <;> cases fre <;>
      simp [Write, hh, renameInto, hk, removeTempFile, htemp]

theorem write_atomic_witness :
    (∀ i ∈ sampleState.temp, i < sampleState.tmpCounter) ∧
    (Write sampleState "k" [1, 2] 5 false true false false).1.temp
      = sampleState.temp ∧
    (Write sampleState "k" [1, 2] 5 false true false false).1.base
      = sampleState.base := by
  have h := write_atomic sampleState "k" [1, 2] 5 false true false false
    (by intro i hi; cases hi)
  refine ⟨?_, ?_, ?_⟩
  · intro i hi; cases hi
  · exact h.1
  · exact h.2.2.1 (by decide)

/-- Claim C2: writing to a key whose entry already exists as a regular file
returns the `keyExisted` error with the disk state — in particular the
existing entry and its content — completely unchanged, and nothing of the
input stream lands under the base directory. -/
theorem write_createOnly (st : DiskState) (key : String) (content : List Nat)
    (now : Int) (fcr fco fsy fre : Bool) (e : FInfo)
    (hk : lookupFile st.base key = some e) (hd : e.isDir = false) :
    Write st key content now fcr fco fsy fre = (st, .error .keyExisted) ∧
    lookupFile (Write st key content now fcr fco fsy fre).1.base key
      = some e := by
  have hh : hasFile st key = .ok () := by
    simp [hasFile, checkFileExist, hk, hd]
  constructor
  · simp [Write, hh]
  · simp [Write, hh, hk]

theorem write_createOnly_witness :
    lookupFile cStateK.base "k" = some cFileK ∧
    cFileK.isDir = false ∧
    Write cStateK "k" [9] 7 false false false false
      = (cStateK, .error .keyExisted) :=
  ⟨rfl, rfl, (write_createOnly cStateK "k" [9] 7 false false false false
    cFileK rfl rfl).1⟩

/-- Claim C6: a successful `Read` of an existing key returns the entry's
content and updates its last-access timestamp to the current time before
handing back the stream, so reading strictly after the recorded timestamp
T1 yields a new timestamp T2 = now with T2 > T1. -/
theorem read_bumps_recency (st : DiskState) (key : String) (now : Int)
    (e : FInfo) (hk : lookupFile st.base key = some e)
    (hd : e.isDir = false) (ht : e.modTime < now) :
    (Read st key now).2 = .ok e.content ∧
    lookupFile (Read st key now).1.base key = some { e with modTime := now } ∧
    e.modTime < now := by
  have hh : hasFile st key = .ok () := by
    simp [hasFile, checkFileExist, hk, hd]
  have hmap := lookupFile_map_touch st.base key now e hk
  have hts : (if now = 0 then now else now) = now := ite_self now
  refine ⟨?_, ?_, ht⟩
  · simp [Read, hh, touch, hk, hts, hmap]
  · simp [Read, hh, touch, hk, hts, hmap]

theorem read_bumps_recency_witness :
    lookupFile cStateK.base "k" = some cFileK ∧
    cFileK.isDir = false ∧
    cFileK.modTime < 9 ∧
    (Read cStateK "k" 9).2 = .ok cFileK.content ∧
    lookupFile (Read cStateK "k" 9).1.base "k"
      = some { cFileK with modTime := 9 } := by
  have h := read_bumps_recency cStateK "k" 9 cFileK rfl rfl (by decide)
  exact ⟨rfl, rfl, by decide, h.1, h.2.1⟩

/-- Claim C10: when the path for a key names a directory rather than a
regular file, `Read` and `Delete` fail with the not-exist error leaving the
state untouched — so `Delete` never removes a directory — and `Has`
reports false; no key/value operation observes or destroys the directory. -/
theorem dirEntry_invisible (st : DiskState) (key : String) (now : Int)
    (fr : Bool) (e : FInfo) (hk : lookupFile st.base key = some e)
    (hd : e.isDir = true) :
    Read st key now = (st, .error .notExist) ∧
    Delete st key fr = (st, .error .notExist) ∧
    Has st key = false := by
  have hh : hasFile st key = .error .notExist := by
    simp [hasFile, checkFileExist, hk, hd]
  exact ⟨by simp [Read, hh], by simp [Delete, hh], by simp [Has, hh]⟩

theorem dirEntry_invisible_witness :
    lookupFile cStateD.base "d" = some cDirD ∧
    cDirD.isDir = true ∧
    Read cStateD "d" 7 = (cStateD, .error .notExist) ∧
    Delete cStateD "d" false = (cStateD, .error .notExist) ∧
    Has cStateD "d" = false := by
  have h := dirEntry_invisible cStateD "d" 7 false cDirD rfl rfl
  exact ⟨rfl, rfl, h.1, h.2.1, h.2.2⟩

/-! ### Claim theorems: scheduler -/

/-- Claim C8 (code evidence): the first `StopGC` — including on a scheduler
whose `RunGC` was never started, since `New` always creates the open `quit`
channel — closes the channel without panicking, but a second `StopGC`
executes `close` on the already-closed channel, which is a Go runtime
panic, not a benign no-op. -/
theorem stopGC_double_close_panics :
    StopGC false = .ok true ∧
    (match StopGC false with
      | .ok closed => StopGC closed
      | .error e => .error e) = .error "close of closed channel" :=
  ⟨rfl, rfl⟩

/-- Claim C9 (code evidence): the `RunGC` loop consumes one ticker tick at
the top of its body and a second one in the `select` before running a
single eviction pass, so after one elapsed interval no pass has run and in
general `2*n` ticks yield only `n` passes — not one pass per tick; the
pass count is the same whether the pass errors or not, confirming that a
pass error never terminates the loop. -/
theorem runGC_pass_every_two_ticks :
    (runGCLoop (fun st => (st, .error .ioErr)) 1 sampleState).2 = 0 ∧
    (runGCLoop (fun st => (st, .error .ioErr)) 2 sampleState).2 = 1 ∧
    (runGCLoop (fun st => (st, .ok ())) 4 sampleState).2 = 2 ∧
    (∀ (pass : DiskState → DiskState × Except FCErr Unit) (n : Nat)
        (st : DiskState), (runGCLoop pass (2 * n) st).2 = n) := by
  refine ⟨rfl, rfl, rfl, ?_⟩
  intro pass n
  induction n with
  | zero => intro st; rfl
  | succ m ih =>
    intro st
    have h2 : 2 * (m + 1) = 2 * m + 2 := by ring
    rw [h2]
    simp [runGCLoop, ih]

/-! ### Claim theorems: the listing -/

/-- Claim C5: `Files` returns the direct (non-recursive) contents of the
base directory as a permutation sorted ascending by the last-access key the
comparator observes (`ModTime().Unix()`, second resolution), and it is a
function of the state, so two calls on the same state give the same order;
when the entries' sort keys strictly increase in directory (write) order —
no intervening reads — the listing is exactly write order, oldest first. -/
theorem listing_sorted (st : DiskState) :
    (Files st).Perm st.base ∧
    (Files st).Pairwise (fun a b => fileLE a b = true) ∧
    ((st.base.Pairwise fun a b => unixSec a.modTime < unixSec b.modTime) →
      Files st = st.base) :=
  ⟨Files_perm st, Files_sorted st, Files_eq_of_sorted st⟩

theorem listing_sorted_witness :
    (orderedState.base.Pairwise
      fun a b => unixSec a.modTime < unixSec b.modTime) ∧
    Files orderedState = orderedState.base := by
  refine ⟨by decide, (listing_sorted orderedState).2.2 (by decide)⟩

/-! ### The size (LRU) pass -/

theorem lruTake_take (r : Int) (files : List FInfo) :
    lruTake r files = files.take (lruTake r files).length := by
  induction files generalizing r with
  | nil => rfl
  | cons f rest ih =>
    rw [lruTake]
    by_cases h : f.size ≥ r
    · simp [h]
    · rw [if_neg h]
      simp only [List.length_cons, List.take_succ_cons]
      rw [← ih (r - f.size)]

theorem lruTake_reach (r : Int) (files : List FInfo) (hr : 0 < r) :
    sumSizes (lruTake r files) ≥ r ∨ lruTake r files = files := by
  induction files generalizing r with
  | nil => right; rfl
  | cons f rest ih =>
    rw [lruTake]
    by_cases h : f.size ≥ r
    · left
      rw [if_pos h, sumSizes_cons]
      simp only [sumSizes, List.map_nil, List.sum_nil]
      omega
    · rw [if_neg h]
      rcases ih (r - f.size) (by omega) with hge | heq
      · left
        rw [sumSizes_cons]
        omega
      · right
        rw [heq]

theorem lruTake_min (r : Int) (files : List FInfo) (hr : 0 < r) :
    ∀ k < (lruTake r files).length, sumSizes (files.take k) < r := by
  induction files generalizing r with
  | nil =>
    intro k hk
    rw [lruTake] at hk
    simp at hk
  | cons f rest ih =>
    intro k hk
    rw [lruTake] at hk
    by_cases h : f.size ≥ r
    · rw [if_pos h] at hk
      have hk0 : k = 0 := by simpa using Nat.lt_one_iff.mp (by simpa using hk)
      subst hk0
      simpa [sumSizes] using hr
    · rw [if_neg h] at hk
      cases k with
      | zero => simpa [sumSizes] using hr
      | succ k2 =>
        rw [List.take_succ_cons, sumSizes_cons]
        have hk2 : k2 < (lruTake (r - f.size) rest).length := by
          simpa using hk
        have := ih (r - f.size) (by omega) k2 hk2
        omega

theorem cleanLRUGo_ok (resize : Int) (fd : String → Bool)
    (files : List FInfo) :
    ∀ (st : DiskState) (cleaned : Int),
      (names files).Nodup →
      (∀ f ∈ files, lookupFile st.base f.name = some f ∧ f.isDir = false) →
      (∀ f ∈ files, fd f.name = false) →
      cleanLRUGo resize fd files cleaned st =
        ({ st with base :=
            dropNames st.base (names (lruTake (resize - cleaned) files)) },
          .ok ()) := by
  induction files with
  | nil =>
    intro st cleaned _ _ _
    rfl
  | cons f rest ih =>
    intro st cleaned hnd hpres hfd
    have hf := hpres f (List.mem_cons_self f rest)
    have hfd0 : fd f.name = false := hfd f (List.mem_cons_self f rest)
    have hndr : (names rest).Nodup := (List.nodup_cons.mp hnd).2
    have hfn : f.name ∉ names rest := (List.nodup_cons.mp hnd).1
    have hpres' : ∀ g ∈ rest,
        lookupFile (dropName st.base f.name) g.name = some g ∧
          g.isDir = false := by
      intro g hg
      have hne : g.name ≠ f.name := by
        intro hc
        exact hfn (hc ▸ List.mem_map_of_mem (fun e => e.name) hg)
      rw [dropName, lookupFile_filter_ne _ _ _ hne]
      exact hpres g (List.mem_cons_of_mem f hg)
    have hdel : Delete st f.name (fd f.name)
        = ({ st with base := dropName st.base f.name }, .ok ()) := by
      rw [hfd0]
      exact Delete_ok_eq st f.name f hf.1 hf.2
    rw [cleanLRUGo, hdel]
    by_cases hstop : cleaned + f.size ≥ resize
    · have htk : f.size ≥ resize - cleaned := by omega
      simp only [if_pos hstop]
      rw [lruTake, if_pos htk]
      rfl
    · have htk : ¬ (f.size ≥ resize - cleaned) := by omega
      simp only [if_neg hstop]
      have hrec := ih { st with base := dropName st.base f.name }
        (cleaned + f.size) hndr hpres'
        (fun g hg => hfd g (List.mem_cons_of_mem f hg))
      rw [hrec, lruTake, if_neg htk]
      have harg : resize - (cleaned + f.size) = resize - cleaned - f.size := by
        ring
      rw [harg, names_cons, dropNames_cons]

/-- Claim C3: with no injected failures, the size pass is a no-op when the
total size does not exceed `maxSize`; when it strictly exceeds it, the pass
deletes exactly a prefix of the ascending last-access listing (oldest
first), accumulating the deleted sizes, stopping immediately after the
first entry whose deletion makes the accumulated size reach or exceed
`excess = totalSize - maxSize` (possibly overshooting, never trimming to
the exact boundary), and deleting everything only if even that does not
cover the excess. -/
theorem lru_pass_excess (maxSize : Int) (st : DiskState)
    (hnd : WFNames st) (hdir : ∀ e ∈ st.base, e.isDir = false) :
    (Size st ≤ maxSize →
      cleanCachedFileByLRU maxSize false (fun _ => false) st = (st, .ok ())) ∧
    (maxSize < Size st →
      cleanCachedFileByLRU maxSize false (fun _ => false) st =
        ({ st with base := dropNames st.base (names (lruVictims maxSize st)) },
          .ok ()) ∧
      lruVictims maxSize st = (Files st).take (lruVictims maxSize st).length ∧
      (sumSizes (lruVictims maxSize st) ≥ Size st - maxSize ∨
        lruVictims maxSize st = Files st) ∧
      (∀ k < (lruVictims maxSize st).length,
        sumSizes ((Files st).take k) < Size st - maxSize) ∧
      (Files st).Pairwise (fun a b => fileLE a b = true)) := by
  constructor
  · intro hle
    have hng : ¬ (Size st - maxSize > 0) := by omega
    rw [cleanCachedFileByLRU]
    simp only [hng, if_false]
  · intro hgt
    have hpos : (0:Int) < Size st - maxSize := by omega
    refine ⟨?_, lruTake_take _ _, lruTake_reach _ _ hpos,
      lruTake_min _ _ hpos, Files_sorted st⟩
    show cleanCachedFileByLRU maxSize false (fun _ => false) st =
      ({ st with base :=
          dropNames st.base (names (lruTake (Size st - maxSize) (Files st))) },
        Except.ok ())
    have hgo := cleanLRUGo_ok (Size st - maxSize) (fun _ => false) (Files st)
      st 0 (names_Files_nodup st hnd) (Files_presence st hnd hdir)
      (fun _ _ => rfl)
    rw [cleanCachedFileByLRU]
    simp only [FilesE, if_false, Bool.false_eq_true, gt_iff_lt, hpos, if_true]
    rw [hgo, sub_zero]

theorem lru_pass_excess_witness :
    WFNames lruState ∧
    (∀ e ∈ lruState.base, e.isDir = false) ∧
    (19:Int) < Size lruState ∧
    cleanCachedFileByLRU 19 false (fun _ => false) lruState =
      ({ lruState with
          base := dropNames lruState.base (names (lruVictims 19 lruState)) },
        .ok ()) ∧
    (cleanCachedFileByLRU 19 false (fun _ => false) lruState).1.base
      = [{ name := "key2", isDir := false, size := 10,
            modTime := 60000000000, content := [] }] := by
  have h := (lru_pass_excess 19 lruState (by decide) (by decide)).2 (by decide)
  have hs : Files lruState = lruState.base :=
    Files_eq_of_sorted lruState (by decide)
  refine ⟨by decide, by decide, by decide, h.1, ?_⟩
  rw [h.1]
  simp only [lruVictims, hs]
  decide

/-! ### Failure policy of the eviction passes -/

theorem cleanTTLGo_fail (now ttl : Int) (fd : String → Bool) (f : FInfo)
    (B : List FInfo) (hsf : isStale now ttl f = true)
    (hfdf : fd f.name = true) :
    ∀ (A : List FInfo) (st : DiskState),
      (names (A ++ f :: B)).Nodup →
      (∀ g ∈ A ++ f :: B, lookupFile st.base g.name = some g ∧
        g.isDir = false) →
      (∀ g ∈ A, fd g.name = false) →
      cleanTTLGo now ttl fd (A ++ f :: B) st =
        ({ st with base :=
            dropNames st.base (names (A.filter (isStale now ttl))) },
          .error .ioErr) := by
  intro A
  induction A with
  | nil =>
    intro st _ hpres _
    have hf := hpres f (by simp)
    have hdel : Delete st f.name (fd f.name) = (st, .error .ioErr) := by
      rw [hfdf]
      exact Delete_fail_eq st f.name f hf.1 hf.2
    rw [List.nil_append, cleanTTLGo, hsf]
    simp only [if_true]
    rw [hdel]
    rfl
  | cons a A2 ih =>
    intro st hnd hpres hfd
    rw [List.cons_append] at hnd hpres ⊢
    have ha := hpres a (List.mem_cons_self a _)
    have hfda : fd a.name = false := hfd a (List.mem_cons_self a A2)
    have hndr : (names (A2 ++ f :: B)).Nodup := (List.nodup_cons.mp hnd).2
    have hfn : a.name ∉ names (A2 ++ f :: B) := (List.nodup_cons.mp hnd).1
    have hpres' : ∀ g ∈ A2 ++ f :: B,
        lookupFile (dropName st.base a.name) g.name = some g ∧
          g.isDir = false := by
      intro g hg
      have hne : g.name ≠ a.name := by
        intro hc
        exact hfn (hc ▸ List.mem_map_of_mem (fun e => e.name) hg)
      rw [dropName, lookupFile_filter_ne _ _ _ hne]
      exact hpres g (List.mem_cons_of_mem a hg)
    cases hsa : isStale now ttl a with
    | true =>
      have hdel : Delete st a.name (fd a.name)
          = ({ st with base := dropName st.base a.name }, .ok ()) := by
        rw [hfda]
        exact Delete_ok_eq st a.name a ha.1 ha.2
      have hrec := ih { st with base := dropName st.base a.name } hndr hpres'
        (fun g hg => hfd g (List.mem_cons_of_mem a hg))
      rw [cleanTTLGo, hsa]
      simp only [if_true]
      rw [hdel]
      simp only [hrec]
      simp [List.filter_cons, hsa, names_cons, dropNames_cons]
    | false =>
      have hrec := ih st hndr
        (fun g hg => hpres g (List.mem_cons_of_mem a hg))
        (fun g hg => hfd g (List.mem_cons_of_mem a hg))
      rw [cleanTTLGo, hsa]
      simp only [Bool.false_eq_true, if_false]
      rw [hrec]
      simp [List.filter_cons, hsa]

theorem cleanLRUGo_fail (resize : Int) (fd : String → Bool) (f : FInfo)
    (B : List FInfo) (hfdf : fd f.name = true) :
    ∀ (A : List FInfo) (st : DiskState) (cleaned : Int),
      (names (A ++ f :: B)).Nodup →
      (∀ g ∈ A ++ f :: B, lookupFile st.base g.name = some g ∧
        g.isDir = false) →
      (∀ g ∈ A, fd g.name = false) →
      (∀ g ∈ A, 0 ≤ g.size) →
      cleaned + sumSizes A < resize →
      cleanLRUGo resize fd (A ++ f :: B) cleaned st =
        ({ st with base := dropNames st.base (names A) }, .error .ioErr) := by
  intro A
  induction A with
  | nil =>
    intro st cleaned _ hpres _ _ _
    have hf := hpres f (by simp)
    have hdel : Delete st f.name (fd f.name) = (st, .error .ioErr) := by
      rw [hfdf]
      exact Delete_fail_eq st f.name f hf.1 hf.2
    rw [List.nil_append, cleanLRUGo, hdel]
    rfl
  | cons a A2 ih =>
    intro st cleaned hnd hpres hfd hsz hsum
    rw [List.cons_append] at hnd hpres ⊢
    have ha := hpres a (List.mem_cons_self a _)
    have hfda : fd a.name = false := hfd a (List.mem_cons_self a A2)
    have hndr : (names (A2 ++ f :: B)).Nodup := (List.nodup_cons.mp hnd).2
    have hfn : a.name ∉ names (A2 ++ f :: B) := (List.nodup_cons.mp hnd).1
    have hpres' : ∀ g ∈ A2 ++ f :: B,
        lookupFile (dropName st.base a.name) g.name = some g ∧
          g.isDir = false := by
      intro g hg
      have hne : g.name ≠ a.name := by
        intro hc
        exact hfn (hc ▸ List.mem_map_of_mem (fun e => e.name) hg)
      rw [dropName, lookupFile_filter_ne _ _ _ hne]
      exact hpres g (List.mem_cons_of_mem a hg)
    have hA2nn : (0:Int) ≤ sumSizes A2 := by
      refine List.sum_nonneg ?_
      intro x hx
      obtain ⟨g, hg, hgx⟩ := List.mem_map.mp hx
      exact hgx ▸ hsz g (List.mem_cons_of_mem a hg)
    have hsumcons : sumSizes (a :: A2) = a.size + sumSizes A2 :=
      sumSizes_cons a A2
    have hdel : Delete st a.name (fd a.name)
        = ({ st with base := dropName st.base a.name }, .ok ()) := by
      rw [hfda]
      exact Delete_ok_eq st a.name a ha.1 ha.2
    have hstop : ¬ (cleaned + a.size ≥ resize) := by omega
    rw [cleanLRUGo, hdel]
    simp only [if_neg hstop]
    have hrec := ih { st with base := dropName st.base a.name }
      (cleaned + a.size) hndr hpres'
      (fun g hg => hfd g (List.mem_cons_of_mem a hg))
      (fun g hg => hsz g (List.mem_cons_of_mem a hg))
      (by omega)
    rw [hrec, names_cons, dropNames_cons]

/-- Claim C7: in both eviction passes a directory-listing failure makes the
pass return success having deleted nothing, while an I/O error deleting a
specific listed entry stops the pass immediately — only the entries
processed before it are deleted, everything from the failing entry on is
left in place — and that error is surfaced to the caller. -/
theorem eviction_failure_policy :
    (∀ (now ttl : Int) (fd : String → Bool) (st : DiskState),
      cleanCachedFileByTTL now ttl true fd st = (st, .ok ())) ∧
    (∀ (ms : Int) (fd : String → Bool) (st : DiskState),
      cleanCachedFileByLRU ms true fd st = (st, .ok ())) ∧
    (∀ (now ttl : Int) (fd : String → Bool) (st : DiskState)
        (A : List FInfo) (f : FInfo) (B : List FInfo),
      WFNames st → (∀ e ∈ st.base, e.isDir = false) →
      Files st = A ++ f :: B →
      (∀ g ∈ A, fd g.name = false) →
      isStale now ttl f = true → fd f.name = true →
      cleanCachedFileByTTL now ttl false fd st =
        ({ st with base :=
            dropNames st.base (names (A.filter (isStale now ttl))) },
          .error .ioErr)) ∧
    (∀ (ms : Int) (fd : String → Bool) (st : DiskState)
        (A : List FInfo) (f : FInfo) (B : List FInfo),
      WFNames st → (∀ e ∈ st.base, e.isDir = false) →
      (∀ e ∈ st.base, 0 ≤ e.size) →
      Files st = A ++ f :: B →
      (∀ g ∈ A, fd g.name = false) → fd f.name = true →
      ms < Size st → sumSizes A < Size st - ms →
      cleanCachedFileByLRU ms false fd st =
        ({ st with base := dropNames st.base (names A) },
          .error .ioErr)) := by
  refine ⟨?_, ?_, ?_, ?_⟩
  · intro now ttl fd st
    rfl
  · intro ms fd st
    by_cases h : Size st - ms > 0 <;>
      simp [cleanCachedFileByLRU, FilesE, h]
  · intro now ttl fd st A f B hnd hdir hfiles hfdA hsf hfdf
    have hndf : (names (A ++ f :: B)).Nodup := hfiles ▸ names_Files_nodup st hnd
    have hpres : ∀ g ∈ A ++ f :: B,
        lookupFile st.base g.name = some g ∧ g.isDir = false :=
      fun g hg => Files_presence st hnd hdir g (hfiles ▸ hg)
    have h := cleanTTLGo_fail now ttl fd f B hsf hfdf A st hndf hpres hfdA
    rw [cleanCachedFileByTTL]
    simp only [FilesE, if_false, Bool.false_eq_true]
    rw [hfiles, h]
  · intro ms fd st A f B hnd hdir hsz hfiles hfdA hfdf hms hsum
    have hndf : (names (A ++ f :: B)).Nodup := hfiles ▸ names_Files_nodup st hnd
    have hpres : ∀ g ∈ A ++ f :: B,
        lookupFile st.base g.name = some g ∧ g.isDir = false :=
      fun g hg => Files_presence st hnd hdir g (hfiles ▸ hg)
    have hszA : ∀ g ∈ A, (0:Int) ≤ g.size := by
      intro g hg
      have hgb : g ∈ st.base :=
        mem_Files.mp (hfiles ▸ List.mem_append_left _ hg)
      exact hsz g hgb
    have hpos : Size st - ms > 0 := by omega
    have h := cleanLRUGo_fail (Size st - ms) fd f B hfdf A st 0 hndf hpres
      hfdA hszA (by omega)
    rw [cleanCachedFileByLRU]
    simp only [FilesE, if_false, Bool.false_eq_true, gt_iff_lt, hpos, if_true]
    rw [hfiles, h]

theorem eviction_failure_policy_witness :
    WFNames failState ∧
    (∀ e ∈ failState.base, e.isDir = false) ∧
    (∀ e ∈ failState.base, (0:Int) ≤ e.size) ∧
    cleanCachedFileByTTL 100000000000 10000000000 true failOnKey2 failState
      = (failState, .ok ()) ∧
    cleanCachedFileByLRU 5 true failOnKey2 failState = (failState, .ok ()) ∧
    cleanCachedFileByTTL 100000000000 10000000000 false failOnKey2 failState
      = ({ failState with base :=
            [{ name := "key2", isDir := false, size := 10,
               modTime := 1000000000, content := [] }] },
          .error .ioErr) ∧
    cleanCachedFileByLRU 5 false failOnKey2 failState
      = ({ failState with base :=
            [{ name := "key2", isDir := false, size := 10,
               modTime := 1000000000, content := [] }] },
          .error .ioErr) := by
  have hs : Files failState = failState.base :=
    Files_eq_of_sorted failState (by decide)
  have h3 := eviction_failure_policy.2.2.1 100000000000 10000000000 failOnKey2
    failState
    [{ name := "key1", isDir := false, size := 10, modTime := 0,
       content := [] }]
    { name := "key2", isDir := false, size := 10, modTime := 1000000000,
      content := [] }
    [] (by decide) (by decide) (by rw [hs]; rfl) (by decide) (by decide)
    (by decide)
  have h4 := eviction_failure_policy.2.2.2 5 failOnKey2 failState
    [{ name := "key1", isDir := false, size := 10, modTime := 0,
       content := [] }]
    { name := "key2", isDir := false, size := 10, modTime := 1000000000,
      content := [] }
    [] (by decide) (by decide) (by decide) (by rw [hs]; rfl) (by decide)
    (by decide) (by decide) (by decide)
  refine ⟨by decide, by decide, by decide,
    eviction_failure_policy.1 100000000000 10000000000 failOnKey2 failState,
    eviction_failure_policy.2.1 5 failOnKey2 failState, ?_, ?_⟩
  · rw [h3]
    decide
  · rw [h4]
    decide

end Filecache
